import Mathlib

/-!
# Verification of `scramble_squares_solver.py`

A shallow embedding of the scramble-squares puzzle solver.  Python dicts are
modelled as association lists (first-match lookup, insertion-order keys,
overwriting assignment), Python exceptions as `Option`/explicit error
constructors, and the process-wide `Symbol._rare_dict` as explicit state
threaded through the functions that touch it.  `Loc` objects are identified
with their coordinates and `Tile` objects with their field data: in the
program each layout holds exactly one `Loc` per coordinate and tiles are
distinct objects, so Python's identity equality coincides with this value
equality on all states the claims range over.
-/

/-- A coordinate: `Loc.coord`, a 2-tuple. -/
abbrev Coord := Int × Int

/-- A symbol identity: `Symbol._sym = (sym_type, side)`. -/
abbrev Symb := String × String

/-- `Symbol.sym_type`. -/
def Symb.sym_type (s : Symb) : String := s.1

/-- `Symbol.side`. -/
def Symb.side (s : Symb) : String := s.2

/-! ## Layout: direction pairs and the adjacency graph -/

/-- `reverse_direction_map = {v: k for k, v in direction_map.items()}` followed
by a lookup: in a dict comprehension a later entry overwrites an earlier one
with the same key, so lookup finds the *last* pair of `m` whose delta is `v`. -/
def revLookup (m : List (String × Coord)) (v : Coord) : Option String :=
  (m.reverse.find? (fun p => p.2 = v)).map (·.1)

/-- The loop body of `Layout.__init__` that builds `direction_pairs`:
for each direction, look up the direction whose delta is the negation.
A missing key raises `KeyError`, modelled by `none`. -/
def mkPairsGo (m : List (String × Coord)) : List (String × Coord) → Option (List (String × String))
  | [] => some []
  | (d, dv) :: rest =>
    match revLookup m (-dv.1, -dv.2) with
    | none => none
    | some d2 => (mkPairsGo m rest).map (fun ps => (d, d2) :: ps)

/-- `direction_pairs` construction over the whole `direction_map`. -/
def mkDirectionPairs (m : List (String × Coord)) : Option (List (String × String)) :=
  mkPairsGo m m

/-- `Layout.locs`: the values of `loc_dict`, one `Loc` per distinct coordinate. -/
def locsOf (coords : List Coord) : List Coord :=
  coords.dedup

/-- The `inner_edges` counter of `Layout.__init__`: for every loc and every
direction, count 1 if the coordinate shifted by the direction's delta is in
`self.coords`. -/
def innerEdgesCalc (coords : List Coord) (m : List (String × Coord)) : Nat :=
  ((locsOf coords).map
    (fun c => m.countP (fun p => decide ((c.1 + p.2.1, c.2 + p.2.2) ∈ coords)))).sum

/-- The fields of a constructed `Layout`. -/
structure Layout where
  coords : List Coord
  direction_map : List (String × Coord)
  direction_pairs : List (String × String)
  inner_edges : Nat
deriving DecidableEq

/-- `Layout.__init__` with explicit coordinates: build the direction pairs
(raising `KeyError`, modelled as `none`, if some direction has no reciprocal)
and count the inner edges. -/
def Layout.make (coords : List Coord) (m : List (String × Coord)) : Option Layout :=
  (mkDirectionPairs m).map (fun ps => ⟨coords, m, ps, innerEdgesCalc coords m⟩)

/-- `Layout.get_paired_dir`: `self.direction_pairs.get(dir, None)`. -/
def getPairedDir (lay : Layout) (d : String) : Option String :=
  (lay.direction_pairs.find? (fun p => p.1 = d)).map (·.2)

/-- `Loc.get_dest`: the neighbor stored for a direction, `None` at boundaries
and for directions outside the layout's direction map. -/
def getDest (lay : Layout) (c : Coord) (dir : String) : Option Coord :=
  match lay.direction_map.find? (fun p => p.1 = dir) with
  | none => none
  | some p =>
    let t : Coord := (c.1 + p.2.1, c.2 + p.2.2)
    if t ∈ lay.coords then some t else none

/-- The default 4-neighbor direction map of `Layout.__init__`. -/
def defaultDirectionMap : List (String × Coord) :=
  [("n", (0, -1)), ("s", (0, 1)), ("e", (1, 0)), ("w", (-1, 0))]

/-- The coordinates produced for a `'RxC'` grid string:
`[(i, j) for j in range(numrows) for i in range(numcols)]`. -/
def gridCoords (numrows numcols : Nat) : List Coord :=
  (List.range numrows).flatMap
    (fun j : Nat => (List.range numcols).map (fun i : Nat => ((i : Int), (j : Int))))

/-! ## Tile -/

/-- `Tile`: a stable id, a direction list in rotation order, and a parallel
symbol list. -/
structure Tile where
  tile_id : Int
  directions : List String
  symbols : List Symb
deriving DecidableEq

/-- `Tile.get_symbol`: `idx = directions.index(direction)` (raising
`ValueError`, modelled as `none`, when absent), then
`symbols[(idx - rotation) % len(directions)]` (an out-of-range index is also
`none`).  Python's `%` on a positive modulus agrees with `Int.emod`. -/
def Tile.get_symbol (t : Tile) (direction : String) (rotation : Int) : Option Symb :=
  match t.directions.findIdx? (fun x => x = direction) with
  | none => none
  | some idx =>
    t.symbols.get? (((idx : Int) - rotation).emod t.directions.length).toNat

/-- `Tile.get_dir`: `idx = symbols.index(symbol)` (first occurrence), then
`directions[(idx + rotation) % len(symbols)]`. -/
def Tile.get_dir (t : Tile) (symbol : Symb) (rotation : Int) : Option String :=
  match t.symbols.findIdx? (fun x => x = symbol) with
  | none => none
  | some idx =>
    t.directions.get? (((idx : Int) + rotation).emod t.symbols.length).toNat

/-- `Tile.get_rotations`: `d = directions.index(dir)`, then
`[(d - i) % len(directions) for i, s in enumerate(symbols) if s == symbol]`. -/
def Tile.get_rotations (t : Tile) (symbol : Symb) (dir : String) : Option (List Int) :=
  match t.directions.findIdx? (fun x => x = dir) with
  | none => none
  | some d =>
    some (t.symbols.enum.filterMap (fun p =>
      if p.2 = symbol then some (((d : Int) - p.1).emod t.directions.length) else none))

/-! ## Symbol rarity: the process-wide `Symbol._rare_dict` -/

/-- A Python dict as an association list with unique keys in insertion order. -/
def dictSet (d : List (Symb × Bool)) (s : Symb) (b : Bool) : List (Symb × Bool) :=
  if d.any (fun p => p.1 = s) then
    d.map (fun p => if p.1 = s then (s, b) else p)
  else
    d ++ [(s, b)]

/-- `Symbol._rare_dict.get(self._sym, None)`: the `rare` property getter. -/
def lookupRare (d : List (Symb × Bool)) (s : Symb) : Option Bool :=
  (d.find? (fun p => p.1 = s)).map (·.2)

/-- `Symbol.__init__(sym_type, side, rare=False)`: the constructor always runs
the `rare` setter, writing `rare` into the process-wide dict for this
identity. -/
def symbolInit (d : List (Symb × Bool)) (sym_type side : String) (rare : Bool) :
    List (Symb × Bool) :=
  dictSet d (sym_type, side) rare

/-- Python truthiness of the getter's result (`None` and `False` are falsy). -/
def truthy : Option Bool → Bool
  | some b => b
  | none => false

/-! ## Game construction: symbol frequency, rarity and pairing -/

/-- The rare-marking loop of `Game.__init__` (run when `Globals.USE_RARES`):
for each distinct symbol, if its count over all tiles' symbols is at most
`inner_edges / len(symbols)` (Python true division, modelled exactly in `ℚ`),
set its `rare` flag to `True`. -/
def rarityPass (symbols : List Symb) (freq : Symb → Nat) (inner_edges nsyms : Nat)
    (d : List (Symb × Bool)) : List (Symb × Bool) :=
  symbols.foldl
    (fun d s =>
      if (freq s : ℚ) ≤ (inner_edges : ℚ) / (nsyms : ℚ) then dictSet d s true else d)
    d

/-- The rare-dict state produced by constructing every symbol of every tile
(each `Symbol.__init__` writes `False` for its identity). -/
def rareInit (symlist : List Symb) : List (Symb × Bool) :=
  symlist.foldl (fun d s => dictSet d s false) []

/-- The rare-dict state after `Game.__init__` finishes, starting from the
state left by constructing the tiles' symbols.  `self.symbols = set(symlist)`
is modelled as `symlist.dedup`; every result below is independent of the
set's iteration order because all writes store `True`. -/
def gameRares (tiles : List Tile) (inner_edges : Nat) : List (Symb × Bool) :=
  let symlist := tiles.flatMap (·.symbols)
  let symbols := symlist.dedup
  rarityPass symbols (fun s => symlist.count s) inner_edges symbols.length
    (rareInit symlist)

/-- The `sympairs` dict of `Game.__init__`: each symbol maps to the first
symbol of the set with the same type and a different side, if any.  With
exactly two side labels the partner is unique, so the set's iteration order
is immaterial. -/
def gameSympairs (symbols : List Symb) : List (Symb × Symb) :=
  symbols.filterMap (fun s =>
    (symbols.find? (fun p => p.1 = s.1 ∧ ¬ p.2 = s.2)).map (fun o => (s, o)))

/-- `sympairs.get(sym, None)`. -/
def lookupPair (ps : List (Symb × Symb)) (s : Symb) : Option Symb :=
  (ps.find? (fun p => p.1 = s)).map (·.2)

/-- The state of a constructed `Game` needed by the search: the layout, the
tiles, the derived `sympairs` dict and the rare-dict state. -/
structure Game where
  layout : Layout
  tiles : List Tile
  sympairs : List (Symb × Symb)
  rares : List (Symb × Bool)
deriving DecidableEq

/-- `Game.__init__` with `Globals.USE_RARES` as a parameter: raises (`none`)
when no tiles are supplied or when the number of distinct side labels is not
exactly two. -/
def mkGame (useRares : Bool) (layout : Layout) (tiles : List Tile) : Option Game :=
  if tiles.isEmpty then none
  else
    let symlist := tiles.flatMap (·.symbols)
    let symbols := symlist.dedup
    let rares :=
      if useRares then gameRares tiles layout.inner_edges else rareInit symlist
    let symsides := (symbols.map (·.2)).dedup
    if symsides.length ≠ 2 then none
    else some ⟨layout, tiles, gameSympairs symbols, rares⟩

/-! ## Board: assignments and validation -/

/-- `Assignment(loc, tile, rotation, validated)`. -/
structure Assignment where
  loc : Coord
  tile : Tile
  rotation : Int
  validated : Bool
deriving DecidableEq

/-- The in-place mutation `assignment.validated = True`. -/
def setValidated (a : Assignment) : Assignment :=
  { a with validated := true }

/-- The inner direction loop of `Board.validate` for one assignment.
`some true`: every direction passed (the flag will be set); `some false`:
an early `return False`; `none`: an uncaught exception (a `get_symbol`
lookup failure, `get_symbol(None, ...)` when the direction is unpaired, or
the comparison `sympairs.get(sym, None) != othersym` when the lookup comes
back `None`: Python then calls the reflected `Symbol.__eq__(None)`, which
reads `None._sym` and raises `AttributeError`). -/
def checkDirs (g : Game) (useRares : Bool) (all : List Assignment) (a : Assignment) :
    List String → Option Bool
  | [] => some true
  | d :: rest =>
    match a.tile.get_symbol d a.rotation with
    | none => none
    | some sym =>
      match getDest g.layout a.loc d with
      | none =>
        if useRares && truthy (lookupRare g.rares sym) then some false
        else checkDirs g useRares all a rest
      | some destloc =>
        match all.find? (fun da => da.loc = destloc) with
        | none => checkDirs g useRares all a rest
        | some destassign =>
          match getPairedDir g.layout d with
          | none => none
          | some otherdir =>
            match destassign.tile.get_symbol otherdir destassign.rotation with
            | none => none
            | some othersym =>
              match lookupPair g.sympairs sym with
              | none => none
              | some p =>
                if ¬ p = othersym then some false
                else checkDirs g useRares all a rest

/-- The outer loop of `Board.validate` over the assignment list: skips
already-validated assignments, sets the flag of each assignment whose
directions all pass, and stops (returning the mutated list so far) on the
first conflict.  The neighbor lookup uses the full original list `all`,
whose relevant fields (`loc`) the mutation never touches. -/
def validateGo (g : Game) (useRares : Bool) (all : List Assignment) :
    List Assignment → Option (Bool × List Assignment)
  | [] => some (true, [])
  | a :: rest =>
    if a.validated then
      match validateGo g useRares all rest with
      | none => none
      | some (ok, rest2) => some (ok, a :: rest2)
    else
      match checkDirs g useRares all a a.tile.directions with
      | none => none
      | some false => some (false, a :: rest)
      | some true =>
        match validateGo g useRares all rest with
        | none => none
        | some (ok, rest2) => some (ok, setValidated a :: rest2)

/-- `Board.validate`: returns the boolean result together with the
assignment list as mutated by the call; `none` models an uncaught
exception. -/
def validate (g : Game) (useRares : Bool) (l : List Assignment) :
    Option (Bool × List Assignment) :=
  validateGo g useRares l l

/-- `Board.check_solved`. -/
def checkSolved (g : Game) (l : List Assignment) : Bool :=
  l.all (·.validated) &&
    (l.length = g.tiles.length || l.length = (locsOf g.layout.coords).length)

/-! ## Board: extension -/

/-- The unassigned tiles in deterministic mode:
`sorted(set(game.tiles) - {a.tile for a in assignments})`.  Python's sort is
stable and uses `Tile.__lt__` (comparison of `tile_id`); with distinct tile
objects the set difference is a filter. -/
def unassignedTiles (g : Game) (l : List Assignment) : List Tile :=
  ((g.tiles.filter (fun t => ¬ l.any (fun a => a.tile = t))).dedup).mergeSort
    (fun t1 t2 => t1.tile_id ≤ t2.tile_id)

/-- `othertile.get_rotations(othersym, otherdir)` where `otherdir` came from
`get_paired_dir` and may be `None`, in which case `directions.index(None)`
raises. -/
def rotsFor (t : Tile) (s : Symb) (dopt : Option String) : Option (List Int) :=
  match dopt with
  | none => none
  | some d => t.get_rotations s d

/-- The inner tile/rotation loops of `Board.extend_board` for one open
direction: for every unassigned tile in order, every rotation placing the
required symbol on the required direction yields
`assignments + [new unvalidated assignment]`. -/
def collectRots (othersym : Symb) (otherdir : Option String) (destloc : Coord)
    (l : List Assignment) : List Tile → Option (List (List Assignment))
  | [] => some []
  | t :: ts =>
    match rotsFor t othersym otherdir with
    | none => none
    | some rots =>
      match collectRots othersym otherdir destloc l ts with
      | none => none
      | some bs => some (rots.map (fun rot => l ++ [⟨destloc, t, rot, false⟩]) ++ bs)

/-- The candidate boards emitted for one open direction of one assignment. -/
def extendDir (g : Game) (l : List Assignment) (unassigned : List Tile)
    (a : Assignment) (d : String) : Option (List (List Assignment)) :=
  match getDest g.layout a.loc d with
  | none => some []
  | some destloc =>
    if (l.find? (fun da => da.loc = destloc)).isSome then some []
    else
      match a.tile.get_symbol d a.rotation with
      | none => none
      | some sym =>
        let otherdir := getPairedDir g.layout d
        match lookupPair g.sympairs sym with
        | none => some []
        | some othersym => collectRots othersym otherdir destloc l unassigned

/-- The direction loop of `Board.extend_board` for one assignment, in
direction order. -/
def extendDirs (g : Game) (l : List Assignment) (unassigned : List Tile)
    (a : Assignment) : List String → Option (List (List Assignment))
  | [] => some []
  | d :: rest =>
    match extendDir g l unassigned a d with
    | none => none
    | some bs =>
      match extendDirs g l unassigned a rest with
      | none => none
      | some bs2 => some (bs ++ bs2)

/-- The outcome of `Board.extend_board`: the usage-contract `ValueError`
("Can only extend a Board that is fully validated."), any other uncaught
exception, or the list of child boards. -/
inductive ExtendRes where
  | usage : ExtendRes
  | crash : ExtendRes
  | ok : List (List Assignment) → ExtendRes
deriving DecidableEq

/-- The assignment loop of `Board.extend_board`: for each assignment the
`validated` precondition is checked before any of its directions are
processed. -/
def extendGo (g : Game) (l : List Assignment) (unassigned : List Tile) :
    List Assignment → ExtendRes
  | [] => .ok []
  | a :: rest =>
    if ¬ a.validated then .usage
    else
      match extendDirs g l unassigned a a.tile.directions with
      | none => .crash
      | some bs =>
        match extendGo g l unassigned rest with
        | .usage => .usage
        | .crash => .crash
        | .ok bs2 => .ok (bs ++ bs2)

/-- `Board.extend_board` in deterministic mode. -/
def extendBoard (g : Game) (l : List Assignment) : ExtendRes :=
  extendGo g l (unassignedTiles g l) l

/-! ## Memoization -/

/-- The memo key: `frozenset(self.assignments)`. -/
def memoKey (l : List Assignment) : Finset Assignment :=
  l.toFinset

/-- `Board.memoize`: `game.boards_visited.add(frozenset(assignments))`. -/
def memoize (visited : List (Finset Assignment)) (l : List Assignment) :
    List (Finset Assignment) :=
  memoKey l :: visited

/-- `Board.check_memo`: `frozenset(assignments) in game.boards_visited`. -/
def checkMemo (visited : List (Finset Assignment)) (l : List Assignment) : Bool :=
  decide (memoKey l ∈ visited)

/-! ## Game.solve

The stack is modelled with its top (the end of the Python list, where
`pop()` and `append` operate) at the head; `stack.insert(0, board)` during
seeding therefore appends at the tail, and pushing children `c1 .. cn` with
`append` in order yields `cn :: ... :: c1 :: rest`. -/

/-- The value `Game.solve` returns: in first-only mode the Python function
returns the local variable `board` both when a solution is found and when
the stack drains, so both produce `single`; all-solutions mode returns the
accumulator.  `crash` models an uncaught exception (including the
`StopIteration`/`NameError` edge cases of an empty layout or an empty
initial stack), `fuelOut` an unfinished run. -/
inductive SolveRes where
  | single : List Assignment → SolveRes
  | multiple : List (List Assignment) → SolveRes
  | crash : SolveRes
  | fuelOut : SolveRes
deriving DecidableEq

/-- The `while self.stack` loop of `Game.solve` with `Globals.MEMOIZE = True`
(the default): pop, validate, check the memo, check solved, extend and push.
`last` tracks the Python variable `board`, which retains the most recently
popped board (as mutated by its `validate` call). -/
def solveLoop (g : Game) (useRares firstOnly : Bool) :
    Nat → List (List Assignment) → List (Finset Assignment) →
    List (List Assignment) → Option (List Assignment) → SolveRes
  | 0, _, _, _, _ => .fuelOut
  | _ + 1, [], _, sols, last =>
    if firstOnly then
      match last with
      | some b => .single b
      | none => .crash
    else .multiple sols
  | fuel + 1, b :: stack, visited, sols, _ =>
    match validate g useRares b with
    | none => .crash
    | some (ok, b2) =>
      if !ok then solveLoop g useRares firstOnly fuel stack visited sols (some b2)
      else
        if checkMemo visited b2 then
          solveLoop g useRares firstOnly fuel stack visited sols (some b2)
        else
          let visited2 := memoize visited b2
          if checkSolved g b2 then
            if firstOnly then .single b2
            else
              match extendBoard g b2 with
              | .usage => .crash
              | .crash => .crash
              | .ok children =>
                solveLoop g useRares firstOnly fuel (children.reverse ++ stack)
                  visited2 (sols ++ [b2]) (some b2)
          else
            match extendBoard g b2 with
            | .usage => .crash
            | .crash => .crash
            | .ok children =>
              solveLoop g useRares firstOnly fuel (children.reverse ++ stack)
                visited2 sols (some b2)

/-- The seed boards of `Game.solve` in deterministic mode: one board per
(tile, rotation) on the first location, processed in generation order
(`insert(0, ...)` at seeding and `pop()` from the end cancel out). -/
def seedBoards (g : Game) (loc : Coord) : List (List Assignment) :=
  g.tiles.flatMap (fun t =>
    (List.range t.directions.length).map (fun r => [⟨loc, t, (r : Int), false⟩]))

/-- `Game.solve` in deterministic mode, with fuel bounding the number of
loop iterations. -/
def solve (g : Game) (useRares firstOnly : Bool) (fuel : Nat) : SolveRes :=
  match (locsOf g.layout.coords).head? with
  | none => .crash
  | some loc => solveLoop g useRares firstOnly fuel (seedBoards g loc) [] [] none

/-! ## Dict lemmas -/

theorem lookupRare_map_set_self (d : List (Symb × Bool)) (s : Symb) (b : Bool)
    (h : d.any (fun p => p.1 = s)) :
    lookupRare (d.map (fun p => if p.1 = s then (s, b) else p)) s = some b := by
  induction d with
  | nil => simp at h
  | cons a d ih =>
    by_cases ha : a.1 = s
    · unfold lookupRare
      rw [List.map_cons, if_pos ha, List.find?_cons_of_pos _ (by simp)]
      rfl
    · have h2 : d.any (fun p => p.1 = s) := by
        simp only [List.any_cons, ha] at h
        simpa using h
      unfold lookupRare
      rw [List.map_cons, if_neg ha, List.find?_cons_of_neg _ (by simpa using ha)]
      exact ih h2

theorem lookupRare_map_set_other (d : List (Symb × Bool)) (s s' : Symb) (b : Bool)
    (hne : s' ≠ s) :
    lookupRare (d.map (fun p => if p.1 = s then (s, b) else p)) s' = lookupRare d s' := by
  induction d with
  | nil => simp [lookupRare]
  | cons a d ih =>
    unfold lookupRare
    by_cases ha : a.1 = s
    · have ha' : ¬ a.1 = s' := by rw [ha]; exact fun hh => hne hh.symm
      rw [List.map_cons, if_pos ha, List.find?_cons_of_neg _ (by simpa using Ne.symm hne),
        List.find?_cons_of_neg _ (by simpa using ha')]
      exact ih
    · by_cases ha2 : a.1 = s'
      · rw [List.map_cons, if_neg ha, List.find?_cons_of_pos _ (by simpa using ha2),
          List.find?_cons_of_pos _ (by simpa using ha2)]
      · rw [List.map_cons, if_neg ha, List.find?_cons_of_neg _ (by simpa using ha2),
          List.find?_cons_of_neg _ (by simpa using ha2)]
        exact ih

theorem lookupRare_none_of_not_any (d : List (Symb × Bool)) (s : Symb)
    (h : ¬ d.any (fun p => p.1 = s) = true) : lookupRare d s = none := by
  induction d with
  | nil => simp [lookupRare]
  | cons a d ih =>
    have ha : ¬ a.1 = s := fun hh => h (by simp [List.any_cons, hh])
    have h2 : ¬ d.any (fun p => p.1 = s) = true :=
      fun hh => h (by simp [List.any_cons, hh])
    unfold lookupRare
    rw [List.find?_cons_of_neg _ (by simpa using ha)]
    exact ih h2

theorem lookupRare_dictSet_self (d : List (Symb × Bool)) (s : Symb) (b : Bool) :
    lookupRare (dictSet d s b) s = some b := by
  unfold dictSet
  by_cases h : d.any (fun p => p.1 = s)
  · simpa [h] using lookupRare_map_set_self d s b h
  · have hnone : lookupRare d s = none := lookupRare_none_of_not_any d s h
    have hd : d.find? (fun p => p.1 = s) = none := by
      unfold lookupRare at hnone
      rcases hh : d.find? (fun p => p.1 = s) with _ | p
      · exact hh
      · rw [hh] at hnone; simp at hnone
    simp only [h]
    rw [if_neg (by simp)]
    unfold lookupRare
    rw [List.find?_append, hd]
    simp [List.find?]

theorem lookupRare_dictSet_other (d : List (Symb × Bool)) (s s' : Symb) (b : Bool)
    (hne : s' ≠ s) : lookupRare (dictSet d s b) s' = lookupRare d s' := by
  unfold dictSet
  by_cases h : d.any (fun p => p.1 = s)
  · simpa [h] using lookupRare_map_set_other d s s' b hne
  · simp only [h]
    rw [if_neg (by simp)]
    unfold lookupRare
    rw [List.find?_append]
    have : List.find? (fun p => decide (p.1 = s')) [(s, b)] = none := by
      simp [List.find?, Ne.symm hne]
    rw [this]
    simp

/-! ## Claim C10: constructing a Symbol resets the shared rarity record -/

/-- C10: constructing a new `Symbol` with the default `rare` argument
overwrites the process-wide rarity record for its `(type, side)` identity
with `False`, so afterwards reading `rare` through any instance with that
identity yields `False`, whatever the record held before. -/
theorem C10_symbol_init_resets_rare (d : List (Symb × Bool)) (t s : String) :
    lookupRare (symbolInit d t s false) (t, s) = some false :=
  lookupRare_dictSet_self d (t, s) false

/-! ## Claim C6: memo keys are insertion-order independent -/

/-- C6: two boards of the same game whose assignment lists are permutations
of one another (same location, tile, rotation and validated flag for each)
produce the same `frozenset` memo key, and once one of them is memoized,
`check_memo` on the other reports a revisit. -/
theorem C6_memo_order_independent (visited : List (Finset Assignment))
    (l1 l2 : List Assignment) (h : l1.Perm l2) :
    memoKey l1 = memoKey l2 ∧ checkMemo (memoize visited l1) l2 = true := by
  have hk : memoKey l1 = memoKey l2 := List.toFinset_eq_of_perm _ _ h
  refine ⟨hk, ?_⟩
  simp [checkMemo, memoize, hk]

/-- Witness for C6 at a concrete pair of two-assignment boards in opposite
insertion order. -/
theorem C6_witness :
    memoKey [(⟨(0, 0), ⟨0, ["e", "w"], [("a", "left"), ("a", "left")]⟩, 0, true⟩ : Assignment),
             ⟨(1, 0), ⟨1, ["e", "w"], [("b", "right"), ("b", "right")]⟩, 1, true⟩] =
      memoKey [(⟨(1, 0), ⟨1, ["e", "w"], [("b", "right"), ("b", "right")]⟩, 1, true⟩ : Assignment),
             ⟨(0, 0), ⟨0, ["e", "w"], [("a", "left"), ("a", "left")]⟩, 0, true⟩] ∧
    checkMemo
      (memoize []
        [(⟨(0, 0), ⟨0, ["e", "w"], [("a", "left"), ("a", "left")]⟩, 0, true⟩ : Assignment),
         ⟨(1, 0), ⟨1, ["e", "w"], [("b", "right"), ("b", "right")]⟩, 1, true⟩])
      [(⟨(1, 0), ⟨1, ["e", "w"], [("b", "right"), ("b", "right")]⟩, 1, true⟩ : Assignment),
       ⟨(0, 0), ⟨0, ["e", "w"], [("a", "left"), ("a", "left")]⟩, 0, true⟩] = true :=
  C6_memo_order_independent [] _ _ (by decide)

/-! ## Claim C2: a direction with no reciprocal delta -/

/-- Counterexample to C2: the direction map `{'e': (1, 0)}` declares a
direction whose negated delta matches no declared delta, and constructing a
`Layout` from it does *not* succeed: the `direction_pairs` loop raises
`KeyError` (modelled as `none`). -/
theorem C2_counterexample :
    Layout.make [(0, 0)] [("e", (1, 0))] = none := by decide

/-- C2 as amended: constructing a `Layout` from a direction map containing a
direction whose negated delta matches no declared direction's delta fails
with a `KeyError` rather than succeeding; no layout (and hence no pairing
lookup) results. -/
theorem C2_unpaired_direction_raises (coords : List Coord)
    (m : List (String × Coord))
    (h : ∃ p ∈ m, revLookup m (-p.2.1, -p.2.2) = none) :
    Layout.make coords m = none := by
  have hgo : ∀ l : List (String × Coord),
      (∃ p ∈ l, revLookup m (-p.2.1, -p.2.2) = none) → mkPairsGo m l = none := by
    intro l hl
    induction l with
    | nil => simp at hl
    | cons a rest ih =>
      rcases hl with ⟨p, hp, hrev⟩
      rcases List.mem_cons.mp hp with rfl | hmem
      · unfold mkPairsGo
        rw [hrev]
      · unfold mkPairsGo
        rcases hra : revLookup m (-a.2.1, -a.2.2) with _ | d2
        · rfl
        · rw [ih ⟨p, hmem, hrev⟩]
          rfl
  unfold Layout.make mkDirectionPairs
  rw [hgo m h]
  rfl

/-- Witness for C2's amended statement at the concrete map `{'e': (1, 0)}`. -/
theorem C2_witness :
    Layout.make [((0 : Int), (0 : Int))] [("e", ((1 : Int), (0 : Int)))] = none :=
  C2_unpaired_direction_raises _ _ (by decide)

/-! ## Claim C8: pairing involution -/

theorem revLookup_mem (m : List (String × Coord)) (v : Coord) (k : String)
    (h : revLookup m v = some k) : (k, v) ∈ m := by
  unfold revLookup at h
  rcases Option.map_eq_some'.mp h with ⟨p, hp, hk⟩
  have hmem : p ∈ m.reverse := List.mem_of_find?_eq_some hp
  have hv : p.2 = v := by simpa using List.find?_some hp
  have : p = (k, v) := by
    rcases p with ⟨p1, p2⟩
    simp only at hk hv
    rw [hk, hv]
  rw [← this]
  exact List.mem_reverse.mp hmem

theorem revLookup_eq_some_of_mem (m : List (String × Coord)) (v : Coord) (k : String)
    (hdeltas : (m.map Prod.snd).Nodup) (h : (k, v) ∈ m) :
    revLookup m v = some k := by
  unfold revLookup
  have hrev : (k, v) ∈ m.reverse := List.mem_reverse.mpr h
  have hsome : (m.reverse.find? (fun p => p.2 = v)).isSome := by
    rw [List.find?_isSome]
    exact ⟨(k, v), hrev, by simp⟩
  rcases Option.isSome_iff_exists.mp hsome with ⟨p, hp⟩
  have hpm : p ∈ m := List.mem_reverse.mp (List.mem_of_find?_eq_some hp)
  have hpv : p.2 = v := by simpa using List.find?_some hp
  have hinj := List.inj_on_of_nodup_map hdeltas
  have : p = (k, v) := hinj hpm h (by simpa using hpv)
  rw [hp, this]
  rfl

/-- The relation between a `direction_map` entry and the `direction_pairs`
entry the construction loop produces for it. -/
def PairEntry (m : List (String × Coord)) (p : String × Coord) (q : String × String) :
    Prop :=
  q.1 = p.1 ∧ revLookup m (-p.2.1, -p.2.2) = some q.2

theorem mkPairsGo_forall₂ (m : List (String × Coord)) :
    ∀ (l : List (String × Coord)) (ps : List (String × String)),
      mkPairsGo m l = some ps → List.Forall₂ (PairEntry m) l ps := by
  intro l
  induction l with
  | nil => intro ps h; cases h; exact List.Forall₂.nil
  | cons a rest ih =>
    intro ps h
    unfold mkPairsGo at h
    rcases hra : revLookup m (-a.2.1, -a.2.2) with _ | d2
    · rw [hra] at h; cases h
    · rw [hra] at h
      rcases hrest : mkPairsGo m rest with _ | ps2
      · rw [hrest] at h; cases h
      · rw [hrest] at h
        simp only [Option.map_some'] at h
        cases h
        exact List.Forall₂.cons ⟨rfl, hra⟩ (ih ps2 hrest)

theorem pairs_find_iff (m : List (String × Coord)) :
    ∀ (l : List (String × Coord)) (ps : List (String × String)),
      List.Forall₂ (PairEntry m) l ps → (l.map Prod.fst).Nodup →
      ∀ (d d' : String),
        ((ps.find? (fun p => p.1 = d)).map (·.2) = some d' ↔
          ∃ dv, (d, dv) ∈ l ∧ revLookup m (-dv.1, -dv.2) = some d') := by
  intro l ps hall
  induction hall with
  | nil => intro _ d d'; simp
  | @cons p q l2 ps2 hpq htail ih =>
    intro hnodup d d'
    have hnodup2 : (l2.map Prod.fst).Nodup := by
      simpa using (List.nodup_cons.mp (by simpa using hnodup)).2
    by_cases hd : q.1 = d
    · rw [List.find?_cons_of_pos _ (by simpa using hd)]
      constructor
      · intro h
        refine ⟨p.2, ?_, ?_⟩
        · have h1 : p.1 = d := by rw [← hpq.1, hd]
          have hp : (d, p.2) = p := by rw [← h1]
          rw [hp]
          exact List.mem_cons_self _ _
        · rcases hpq with ⟨_, hrev⟩
          rw [hrev]
          simpa using h
      · intro ⟨dv, hmem, hrev⟩
        rcases List.mem_cons.mp hmem with heq | hmem2
        · have hdv : dv = p.2 := by
            have := congrArg Prod.snd heq
            simpa using this
          rw [hdv] at hrev
          rw [hpq.2] at hrev
          simpa using hrev
        · exfalso
          have hdfst : d ∈ l2.map Prod.fst :=
            List.mem_map.mpr ⟨(d, dv), hmem2, rfl⟩
          have hp1 : p.1 = d := by rw [← hpq.1, hd]
          have : ¬ p.1 ∈ l2.map Prod.fst :=
            (List.nodup_cons.mp (by simpa using hnodup)).1
          rw [hp1] at this
          exact this hdfst
    · rw [List.find?_cons_of_neg _ (by simpa using hd)]
      rw [ih hnodup2 d d']
      constructor
      · intro ⟨dv, hmem, hrev⟩
        exact ⟨dv, List.mem_cons_of_mem _ hmem, hrev⟩
      · intro ⟨dv, hmem, hrev⟩
        rcases List.mem_cons.mp hmem with heq | hmem2
        · exfalso
          have : p.1 = d := by
            have := congrArg Prod.fst heq.symm
            simpa using this
          rw [hpq.1] at hd
          exact hd this
        · exact ⟨dv, hmem2, hrev⟩

/-- Counterexample to C8: the direction map
`{'a': (1, 0), 'b': (1, 0), 'w': (-1, 0)}` is accepted by `Layout`
construction, and pairing is defined on every direction, yet
`get_paired_dir(get_paired_dir('a')) = 'b' ≠ 'a'`: two directions sharing a
delta break the involution because the reversed dict keeps only the last
one. -/
theorem C8_counterexample :
    ∃ lay : Layout,
      Layout.make [(0, 0)] [("a", (1, 0)), ("b", (1, 0)), ("w", (-1, 0))] = some lay ∧
      getPairedDir lay "a" = some "w" ∧
      getPairedDir lay "w" = some "b" ∧
      ("b" : String) ≠ "a" := by
  refine ⟨⟨[(0, 0)], [("a", (1, 0)), ("b", (1, 0)), ("w", (-1, 0))],
    [("a", "w"), ("b", "w"), ("w", "b")], 0⟩, ?_, ?_, ?_, ?_⟩ <;> decide

/-- C8 as amended: for every direction map with pairwise-distinct deltas
(and, as for any Python dict, pairwise-distinct direction names) accepted by
`Layout` construction, pairing is involutive: whenever
`get_paired_dir(d) = d2`, also `get_paired_dir(d2) = d`. -/
theorem C8_pairing_involutive (coords : List Coord) (m : List (String × Coord))
    (lay : Layout) (hkeys : (m.map Prod.fst).Nodup)
    (hdeltas : (m.map Prod.snd).Nodup)
    (hmk : Layout.make coords m = some lay) :
    ∀ d d2, getPairedDir lay d = some d2 → getPairedDir lay d2 = some d := by
  intro d d2 hpair
  unfold Layout.make at hmk
  rcases Option.map_eq_some'.mp hmk with ⟨ps, hps, hlay⟩
  have hall : List.Forall₂ (PairEntry m) m ps := mkPairsGo_forall₂ m m ps hps
  have hiff := pairs_find_iff m m ps hall hkeys
  have hpairs : lay.direction_pairs = ps := by rw [← hlay]
  unfold getPairedDir at hpair ⊢
  rw [hpairs] at hpair ⊢
  rcases (hiff d d2).mp hpair with ⟨dv, hmem, hrev⟩
  have hmem2 : (d2, (-dv.1, -dv.2)) ∈ m := revLookup_mem m _ _ hrev
  refine (hiff d2 d).mpr ⟨(-dv.1, -dv.2), hmem2, ?_⟩
  have hneg : (-(-dv.1 : Int), -(-dv.2 : Int)) = (dv.1, dv.2) := by
    simp
  rw [hneg]
  exact revLookup_eq_some_of_mem m (dv.1, dv.2) d hdeltas (by simpa using hmem)

/-- Witness for C8's amended statement on the default 4-neighbor map. -/
theorem C8_witness :
    ∃ lay : Layout,
      Layout.make [((0 : Int), (0 : Int))] defaultDirectionMap = some lay ∧
      getPairedDir lay "n" = some "s" ∧ getPairedDir lay "s" = some "n" := by
  refine ⟨⟨[(0, 0)], defaultDirectionMap,
    [("n", "s"), ("s", "n"), ("e", "w"), ("w", "e")], 0⟩, ?_, ?_, ?_⟩
  · decide
  · decide
  · exact C8_pairing_involutive [(0, 0)] defaultDirectionMap _ (by decide) (by decide)
      (by decide) "n" "s" (by decide)

/-! ## Claim C4: rotation round-trip -/

/-- Counterexample to C4: a tile repeating a symbol on two sides breaks the
round-trip, because `get_dir` uses `symbols.index`, which returns the first
occurrence: at rotation 0 and direction `'e'`, `get_symbol` yields the
duplicated symbol and `get_dir` sends it back to `'n'`, not `'e'`. -/
theorem C4_counterexample :
    ((Tile.mk 0 ["n", "e"] [("a", "left"), ("a", "left")]).get_symbol "e" 0).bind
        (fun s => (Tile.mk 0 ["n", "e"] [("a", "left"), ("a", "left")]).get_dir s 0) =
      some "n" ∧ ("n" : String) ≠ "e" := by
  constructor
  · decide
  · decide

/-- C4 as amended: for every tile whose symbol list parallels its direction
list (equal lengths, one symbol per direction) and repeats no symbol, every
rotation `r` and every direction `d` of the tile satisfy the round-trip
`get_dir(get_symbol(d, r), r) = d`. -/
theorem C4_rotation_roundtrip (t : Tile) (d : String) (r : Int)
    (hlen : t.symbols.length = t.directions.length)
    (hnodup : t.symbols.Nodup) (hd : d ∈ t.directions) :
    (t.get_symbol d r).bind (fun s => t.get_dir s r) = some d := by
  have hn : 0 < t.directions.length := List.length_pos.mpr (List.ne_nil_of_mem hd)
  rcases hfi : t.directions.findIdx? (fun x => x = d) with _ | idx
  · rw [List.findIdx?_eq_none_iff] at hfi
    have := hfi d hd
    simp at this
  · obtain ⟨hlt, hpd, -⟩ := List.findIdx?_eq_some_iff_getElem.mp hfi
    have hgetd : t.directions[idx] = d := by simpa using hpd
    have hj0 : 0 ≤ ((idx : Int) - r).emod t.directions.length :=
      Int.emod_nonneg _ (by exact_mod_cast hn.ne')
    have hjlt : ((idx : Int) - r).emod t.directions.length < t.directions.length :=
      Int.emod_lt_of_pos _ (by exact_mod_cast hn)
    have hjlt2 : ((((idx : Int) - r).emod t.directions.length)).toNat <
        t.symbols.length := by
      rw [hlen]
      omega
    have hsym : t.get_symbol d r =
        some (t.symbols.get ⟨((((idx : Int) - r).emod t.directions.length)).toNat, hjlt2⟩) := by
      unfold Tile.get_symbol
      rw [hfi]
      exact List.get?_eq_get hjlt2
    rw [hsym]
    simp only [Option.some_bind]
    unfold Tile.get_dir
    have hfind2 : t.symbols.findIdx?
        (fun x => x = t.symbols.get ⟨((((idx : Int) - r).emod t.directions.length)).toNat, hjlt2⟩) =
        some ((((idx : Int) - r).emod t.directions.length)).toNat := by
      rw [List.findIdx?_eq_some_iff_getElem]
      refine ⟨hjlt2, by simp, ?_⟩
      intro k hk
      simp only [Bool.not_eq_true, decide_eq_false_iff_not]
      intro hkk
      have hinj := List.nodup_iff_injective_get.mp hnodup
      have h2 := @hinj ⟨k, Nat.lt_trans hk hjlt2⟩ ⟨_, hjlt2⟩ (by simpa using hkk)
      have : k = ((((idx : Int) - r).emod t.directions.length)).toNat := by
        simpa using congrArg Fin.val h2
      omega
    have hback : ((((((idx : Int) - r).emod t.directions.length)).toNat : Int) + r).emod
        t.symbols.length = (idx : Int) := by
      rw [hlen, Int.toNat_of_nonneg hj0]
      show (((idx : Int) - r) % (t.directions.length : Int) + r) %
          (t.directions.length : Int) = (idx : Int)
      rw [Int.emod_add_emod, sub_add_cancel]
      exact Int.emod_eq_of_lt (by exact_mod_cast Nat.zero_le idx) (by exact_mod_cast hlt)
    rw [hfind2]
    show t.directions.get?
        ((((((idx : Int) - r).emod t.directions.length).toNat : Int) + r).emod
          t.symbols.length).toNat = some d
    rw [hback]
    simp only [Int.toNat_natCast]
    rw [List.get?_eq_get hlt]
    simpa using hgetd

/-- Witness for C4's amended statement on a concrete 4-direction tile. -/
theorem C4_witness :
    ((Tile.mk 7 ["n", "e", "s", "w"]
        [("a", "left"), ("b", "left"), ("c", "left"), ("d", "left")]).get_symbol "e" 3).bind
      (fun s => (Tile.mk 7 ["n", "e", "s", "w"]
        [("a", "left"), ("b", "left"), ("c", "left"), ("d", "left")]).get_dir s 3) =
      some "e" :=
  C4_rotation_roundtrip _ "e" 3 (by decide) (by decide) (by decide)

/-! ## Claim C3: inner-edge count of a default grid -/

theorem mem_gridCoords (r c : Nat) (x y : Int) :
    ((x, y) ∈ gridCoords r c) ↔ 0 ≤ x ∧ x < c ∧ 0 ≤ y ∧ y < r := by
  unfold gridCoords
  simp only [List.mem_flatMap, List.mem_map, List.mem_range, Prod.mk.injEq]
  constructor
  · rintro ⟨j, hj, i, hi, rfl, rfl⟩
    omega
  · rintro ⟨hx0, hxc, hy0, hyr⟩
    refine ⟨y.toNat, by omega, x.toNat, by omega, ?_, ?_⟩ <;> omega

theorem nodup_gridCoords (r c : Nat) : (gridCoords r c).Nodup := by
  unfold gridCoords
  rw [List.nodup_flatMap]
  constructor
  · intro j _
    refine List.Nodup.map ?_ (List.nodup_range c)
    intro a b hab
    have := congrArg Prod.fst hab
    simpa using this
  · have hlt := List.pairwise_lt_range r
    refine hlt.imp ?_
    intro j1 j2 hj12
    intro p hp1 hp2
    rcases List.mem_map.mp hp1 with ⟨i1, _, rfl⟩
    rcases List.mem_map.mp hp2 with ⟨i2, _, heq⟩
    have := congrArg Prod.snd heq
    simp only at this
    omega

theorem listSumRange (g : Nat → Nat) (n : Nat) :
    ((List.range n).map g).sum = ∑ i ∈ Finset.range n, g i := by
  induction n with
  | zero => simp
  | succ n ih =>
    rw [List.range_succ, List.map_append, List.sum_append, Finset.sum_range_succ, ih]
    simp

theorem sumFlatMap {α : Type} (l : List α) (g : α → List Nat) :
    (l.flatMap g).sum = (l.map (fun a => (g a).sum)).sum := by
  induction l with
  | nil => simp
  | cons a l ih => simp [List.flatMap_cons, ih]

theorem sum_map_gridCoords (r c : Nat) (f : Coord → Nat) :
    ((gridCoords r c).map f).sum =
      ∑ j ∈ Finset.range r, ∑ i ∈ Finset.range c, f ((i : Int), (j : Int)) := by
  unfold gridCoords
  rw [List.map_flatMap, sumFlatMap, listSumRange]
  refine Finset.sum_congr rfl (fun j _ => ?_)
  rw [List.map_map, listSumRange]
  rfl

theorem grid_filter_succ (c : Nat) :
    (Finset.range c).filter (fun i => i + 1 < c) = Finset.range (c - 1) := by
  ext i
  simp only [Finset.mem_filter, Finset.mem_range]
  omega

theorem grid_filter_ge_one (c : Nat) :
    (Finset.range c).filter (fun i => 1 ≤ i) = Finset.Ico 1 c := by
  ext i
  simp only [Finset.mem_filter, Finset.mem_range, Finset.mem_Ico]
  omega

theorem sumSuccLt (c : Nat) :
    (∑ i ∈ Finset.range c, if i + 1 < c then 1 else 0) = c - 1 := by
  rw [Finset.sum_boole, grid_filter_succ, Finset.card_range]
  simp

theorem sumGeOne (c : Nat) :
    (∑ i ∈ Finset.range c, if 1 ≤ i then 1 else 0) = c - 1 := by
  rw [Finset.sum_boole, grid_filter_ge_one, Nat.card_Ico]
  simp

theorem cell_count (r c i j : Nat) (hi : i < c) (hj : j < r) :
    defaultDirectionMap.countP
      (fun p => decide ((((i : Int)) + p.2.1, ((j : Int)) + p.2.2) ∈ gridCoords r c)) =
    ((if 1 ≤ j then 1 else 0) + (if j + 1 < r then 1 else 0) +
      (if i + 1 < c then 1 else 0) + (if 1 ≤ i then 1 else 0)) := by
  unfold defaultDirectionMap
  simp only [List.countP_cons, List.countP_nil, mem_gridCoords, decide_eq_true_eq]
  split_ifs <;> omega

theorem innerCellSum (C R j : Nat) :
    (∑ i ∈ Finset.range C,
      ((if 1 ≤ j then 1 else 0) + (if j + 1 < R then 1 else 0) +
        (if i + 1 < C then 1 else 0) + (if 1 ≤ i then 1 else 0))) =
    C * ((if 1 ≤ j then 1 else 0) + (if j + 1 < R then 1 else 0)) + (C - 1) + (C - 1) := by
  rw [Finset.sum_add_distrib, Finset.sum_add_distrib, Finset.sum_add_distrib,
    sumSuccLt C, sumGeOne C, Finset.sum_const, Finset.sum_const, Finset.card_range,
    smul_eq_mul, smul_eq_mul]
  ring

theorem innerEdgesCalc_grid (r c : Nat) (hr : 1 ≤ r) (hc : 1 ≤ c) :
    innerEdgesCalc (gridCoords r c) defaultDirectionMap = 4 * r * c - 2 * r - 2 * c := by
  obtain ⟨r2, rfl⟩ : ∃ r2, r = r2 + 1 := ⟨r - 1, by omega⟩
  obtain ⟨c2, rfl⟩ : ∃ c2, c = c2 + 1 := ⟨c - 1, by omega⟩
  unfold innerEdgesCalc locsOf
  rw [List.dedup_eq_self.mpr (nodup_gridCoords _ _), sum_map_gridCoords]
  rw [Finset.sum_congr rfl (fun j hj => Finset.sum_congr rfl (fun i hi =>
    cell_count (r2 + 1) (c2 + 1) i j (Finset.mem_range.mp hi) (Finset.mem_range.mp hj)))]
  rw [Finset.sum_congr rfl (fun j _ => innerCellSum (c2 + 1) (r2 + 1) j)]
  simp only [Nat.add_sub_cancel]
  rw [Finset.sum_add_distrib, Finset.sum_add_distrib, Finset.sum_const,
    Finset.card_range, smul_eq_mul, ← Finset.mul_sum,
    Finset.sum_add_distrib, sumGeOne (r2 + 1), sumSuccLt (r2 + 1)]
  simp only [Nat.add_sub_cancel]
  have hexp : 4 * (r2 + 1) * (c2 + 1) =
      ((c2 + 1) * (r2 + r2) + ((r2 + 1) * c2 + (r2 + 1) * c2)) +
        (2 * (r2 + 1) + 2 * (c2 + 1)) := by ring
  have hgoal : (c2 + 1) * (r2 + r2) + ((r2 + 1) * c2 + (r2 + 1) * c2) =
      4 * (r2 + 1) * (c2 + 1) - 2 * (r2 + 1) - 2 * (c2 + 1) := by
    rw [hexp, Nat.sub_sub, Nat.add_sub_cancel]
  rw [← hgoal]
  ring

/-- Counterexample to C3: on the default 3×3 grid the code counts 24 inner
edges (each boundary-crossing direction counted from both sides), while the
claim's formula `2·r·c − r − c` gives 12; the claim's two halves contradict
each other and the code satisfies the 24, not the formula. -/
theorem C3_counterexample :
    (Layout.make (gridCoords 3 3) defaultDirectionMap).map Layout.inner_edges =
      some 24 ∧ ¬ (24 : Nat) = 2 * 3 * 3 - 3 - 3 := by
  constructor
  · decide
  · decide

/-- C3 as amended: for every grid layout of `r` rows and `c` columns
(`r, c ≥ 1`) with the default 4-neighbor direction map, the `inner_edges`
count computed at construction equals `4·r·c − 2·r − 2·c`, twice the claim's
value; in particular a 3×3 grid yields 24 inner edges. -/
theorem C3_grid_inner_edges (r c : Nat) (hr : 1 ≤ r) (hc : 1 ≤ c) :
    (Layout.make (gridCoords r c) defaultDirectionMap).map Layout.inner_edges =
      some (4 * r * c - 2 * r - 2 * c) := by
  have hmk : mkDirectionPairs defaultDirectionMap =
      some [("n", "s"), ("s", "n"), ("e", "w"), ("w", "e")] := by decide
  unfold Layout.make
  rw [hmk]
  simp only [Option.map_some']
  show some (innerEdgesCalc (gridCoords r c) defaultDirectionMap) = _
  rw [innerEdgesCalc_grid r c hr hc]

/-- Witness for C3's amended statement at the 3×3 grid. -/
theorem C3_witness :
    (Layout.make (gridCoords 3 3) defaultDirectionMap).map Layout.inner_edges =
      some (4 * 3 * 3 - 2 * 3 - 2 * 3) :=
  C3_grid_inner_edges 3 3 (by decide) (by decide)

/-! ## Claim C9: validate is not atomic on failure -/

theorem setValidated_eq_self (a : Assignment) (h : a.validated = true) :
    setValidated a = a := by
  cases a
  simp only [setValidated]
  simp_all

theorem validateGo_false_shape (g : Game) (u : Bool) (all : List Assignment) :
    ∀ l l2, validateGo g u all l = some (false, l2) →
      ∃ k, k < l.length ∧ l2 = (l.take k).map setValidated ++ l.drop k := by
  intro l
  induction l with
  | nil =>
    intro l2 h
    unfold validateGo at h
    simp at h
  | cons a rest ih =>
    intro l2 h
    unfold validateGo at h
    by_cases hv : a.validated
    · rw [if_pos hv] at h
      rcases hrec : validateGo g u all rest with _ | okrest
      · rw [hrec] at h
        cases h
      · rw [hrec] at h
        rcases okrest with ⟨ok, rest2⟩
        simp only [Option.some.injEq, Prod.mk.injEq] at h
        obtain ⟨hok, hl2⟩ := h
        rcases ih rest2 (by rw [hrec, ← hok]) with ⟨k, hk, hshape⟩
        refine ⟨k + 1, by simpa using Nat.succ_lt_succ hk, ?_⟩
        rw [← hl2, hshape]
        simp only [List.take_succ_cons, List.drop_succ_cons, List.map_cons, List.cons_append]
        rw [setValidated_eq_self a hv]
    · rw [if_neg hv] at h
      rcases hcd : checkDirs g u all a a.tile.directions with _ | b
      · rw [hcd] at h
        cases h
      · rw [hcd] at h
        cases b
        · simp only [Option.some.injEq, Prod.mk.injEq] at h
          refine ⟨0, by simp, ?_⟩
          simp [← h.2]
        · rcases hrec : validateGo g u all rest with _ | okrest
          · rw [hrec] at h
            cases h
          · rw [hrec] at h
            rcases okrest with ⟨ok, rest2⟩
            simp only [Option.some.injEq, Prod.mk.injEq] at h
            obtain ⟨hok, hl2⟩ := h
            rcases ih rest2 (by rw [hrec, ← hok]) with ⟨k, hk, hshape⟩
            refine ⟨k + 1, by simpa using Nat.succ_lt_succ hk, ?_⟩
            rw [← hl2, hshape]
            simp

/-- C9: `Board.validate` is not atomic on failure: when it returns `False`,
the mutated assignment list consists of every assignment processed before
the conflict with its `validated` flag set to `True` (assignments skipped as
already validated are unchanged, which coincides with setting the flag),
followed by the untouched remainder; no flag set during the call is rolled
back. -/
theorem C9_validate_not_atomic (g : Game) (useRares : Bool) (l l2 : List Assignment)
    (h : validate g useRares l = some (false, l2)) :
    ∃ k, k < l.length ∧ l2 = (l.take k).map setValidated ++ l.drop k ∧
      ∀ a ∈ l2.take k, a.validated = true := by
  rcases validateGo_false_shape g useRares l l l2 h with ⟨k, hk, hshape⟩
  refine ⟨k, hk, hshape, ?_⟩
  intro a ha
  rw [hshape] at ha
  have hlen : ((l.take k).map setValidated).length = k := by
    simp [List.length_take]
    omega
  rw [List.take_append_of_le_length (by omega)] at ha
  have ha2 : a ∈ (l.take k).map setValidated := List.mem_of_mem_take ha
  rcases List.mem_map.mp ha2 with ⟨b, _, rfl⟩
  rfl

/-! ## Claim C5: rarity threshold and rare symbols on boundary edges -/

theorem lookupRare_foldl_init_preserve (rest : List Symb) (s : Symb)
    (hns : s ∉ rest) :
    ∀ d : List (Symb × Bool),
      lookupRare (rest.foldl (fun d s2 => dictSet d s2 false) d) s = lookupRare d s := by
  induction rest with
  | nil => intro d; rfl
  | cons a rest ih =>
    intro d
    have hsa : s ≠ a := fun h => hns (h ▸ List.mem_cons_self a rest)
    have hns2 : s ∉ rest := fun h => hns (List.mem_cons_of_mem a h)
    simp only [List.foldl_cons]
    rw [ih hns2]
    exact lookupRare_dictSet_other d a s false hsa

theorem lookupRare_rareInit_aux (symlist : List Symb) (s : Symb) (hs : s ∈ symlist) :
    ∀ d : List (Symb × Bool),
      lookupRare (symlist.foldl (fun d s2 => dictSet d s2 false) d) s = some false := by
  induction symlist with
  | nil => cases hs
  | cons a rest ih =>
    intro d
    simp only [List.foldl_cons]
    by_cases hsr : s ∈ rest
    · exact ih hsr _
    · have hsa : s = a := by
        rcases List.mem_cons.mp hs with h | h
        · exact h
        · exact absurd h hsr
      rw [lookupRare_foldl_init_preserve rest s hsr]
      rw [hsa]
      exact lookupRare_dictSet_self d a false

theorem lookupRare_rareInit (symlist : List Symb) (s : Symb) (hs : s ∈ symlist) :
    lookupRare (rareInit symlist) s = some false :=
  lookupRare_rareInit_aux symlist s hs []

theorem lookupRare_rarityPass (freq : Symb → Nat) (ie n : Nat) :
    ∀ (symbols : List Symb) (d : List (Symb × Bool)) (s : Symb),
      lookupRare (rarityPass symbols freq ie n d) s =
        if s ∈ symbols ∧ (freq s : ℚ) ≤ (ie : ℚ) / (n : ℚ) then some true
        else lookupRare d s := by
  intro symbols
  induction symbols with
  | nil =>
    intro d s
    simp [rarityPass]
  | cons a rest ih =>
    intro d s
    have hstep : rarityPass (a :: rest) freq ie n d =
        rarityPass rest freq ie n
          (if (freq a : ℚ) ≤ (ie : ℚ) / (n : ℚ) then dictSet d a true else d) := by
      simp [rarityPass]
    rw [hstep, ih]
    by_cases hmem : s ∈ rest ∧ (freq s : ℚ) ≤ (ie : ℚ) / (n : ℚ)
    · rw [if_pos hmem, if_pos ⟨List.mem_cons_of_mem a hmem.1, hmem.2⟩]
    · rw [if_neg hmem]
      by_cases hsa : s = a
      · subst hsa
        by_cases hcond : (freq s : ℚ) ≤ (ie : ℚ) / (n : ℚ)
        · rw [if_pos hcond, if_pos ⟨List.mem_cons_self s rest, hcond⟩,
            lookupRare_dictSet_self]
        · rw [if_neg hcond, if_neg (fun h => hcond h.2)]
      · have hlook : lookupRare
            (if (freq a : ℚ) ≤ (ie : ℚ) / (n : ℚ) then dictSet d a true else d) s =
            lookupRare d s := by
          split
          · exact lookupRare_dictSet_other d a s true hsa
          · rfl
        rw [hlook]
        have : ¬ (s ∈ a :: rest ∧ (freq s : ℚ) ≤ (ie : ℚ) / (n : ℚ)) := by
          rintro ⟨hm, hc⟩
          rcases List.mem_cons.mp hm with h | h
          · exact hsa h
          · exact hmem ⟨h, hc⟩
        rw [if_neg this]

theorem gameRares_spec (tiles : List Tile) (ie : Nat) (s : Symb)
    (hs : s ∈ (tiles.flatMap (·.symbols)).dedup) :
    lookupRare (gameRares tiles ie) s = some true ↔
      (((tiles.flatMap (·.symbols)).count s : ℚ) ≤
        (ie : ℚ) / (((tiles.flatMap (·.symbols)).dedup.length : ℚ))) := by
  unfold gameRares
  rw [lookupRare_rarityPass]
  by_cases hcond : (((tiles.flatMap (·.symbols)).count s : ℚ) ≤
      (ie : ℚ) / (((tiles.flatMap (·.symbols)).dedup.length : ℚ)))
  · rw [if_pos ⟨hs, hcond⟩]
    simp [hcond]
  · rw [if_neg (fun h => hcond h.2)]
    rw [lookupRare_rareInit _ s (List.mem_dedup.mp hs)]
    simp [hcond]

theorem get_symbol_some (t : Tile) (d : String) (r : Int)
    (hlen : t.symbols.length = t.directions.length) (hd : d ∈ t.directions) :
    ∃ s, t.get_symbol d r = some s := by
  have hn : 0 < t.directions.length := List.length_pos.mpr (List.ne_nil_of_mem hd)
  rcases hfi : t.directions.findIdx? (fun x => x = d) with _ | idx
  · rw [List.findIdx?_eq_none_iff] at hfi
    have := hfi d hd
    simp at this
  · have hj0 : 0 ≤ ((idx : Int) - r).emod t.directions.length :=
      Int.emod_nonneg _ (by exact_mod_cast hn.ne')
    have hjlt : ((idx : Int) - r).emod t.directions.length < t.directions.length :=
      Int.emod_lt_of_pos _ (by exact_mod_cast hn)
    have hjlt2 : (((idx : Int) - r).emod t.directions.length).toNat <
        t.symbols.length := by
      rw [hlen]
      omega
    refine ⟨t.symbols.get ⟨(((idx : Int) - r).emod t.directions.length).toNat, hjlt2⟩, ?_⟩
    unfold Tile.get_symbol
    rw [hfi]
    exact List.get?_eq_get hjlt2

theorem get_symbol_mem (t : Tile) (d : String) (r : Int) (s : Symb)
    (h : t.get_symbol d r = some s) : s ∈ t.symbols := by
  unfold Tile.get_symbol at h
  rcases hfi : t.directions.findIdx? (fun x => x = d) with _ | idx
  · rw [hfi] at h
    cases h
  · rw [hfi] at h
    exact List.get?_mem h

/-- The well-formedness of a board's tiles and directions relative to its
game, under which `Board.validate` raises no exception: every tile's symbol
list parallels its direction list, every direction of every tile is paired
with a direction present on every tile of the board, and every symbol
carried by an assigned tile has a partner in `sympairs` (an unpairable
symbol compared at an occupied neighbor raises `AttributeError`). -/
def ValidateWF (g : Game) (l : List Assignment) : Prop :=
  (∀ a ∈ l, a.tile.symbols.length = a.tile.directions.length) ∧
  (∀ a ∈ l, ∀ d ∈ a.tile.directions, ∀ a2 ∈ l,
    ∃ d2 ∈ a2.tile.directions, getPairedDir g.layout d = some d2) ∧
  (∀ a ∈ l, ∀ s ∈ a.tile.symbols, (lookupPair g.sympairs s).isSome = true)

instance (g : Game) (l : List Assignment) : Decidable (ValidateWF g l) := by
  unfold ValidateWF
  infer_instance

theorem checkDirs_isSome (g : Game) (u : Bool) (l : List Assignment)
    (a : Assignment) (hwf : ValidateWF g l) (ha : a ∈ l) :
    ∀ dirs : List String, (∀ d ∈ dirs, d ∈ a.tile.directions) →
      ∃ b, checkDirs g u l a dirs = some b := by
  intro dirs
  induction dirs with
  | nil => intro _; exact ⟨true, rfl⟩
  | cons d rest ih =>
    intro hsub
    have hd : d ∈ a.tile.directions := hsub d (List.mem_cons_self d rest)
    have hrest : ∀ d2 ∈ rest, d2 ∈ a.tile.directions :=
      fun d2 h => hsub d2 (List.mem_cons_of_mem d h)
    rcases get_symbol_some a.tile d a.rotation (hwf.1 a ha) hd with ⟨s, hs⟩
    rcases hdest : getDest g.layout a.loc d with _ | destloc
    · simp only [checkDirs, hs, hdest]
      by_cases hrare : (u && truthy (lookupRare g.rares s)) = true
      · rw [if_pos hrare]
        exact ⟨false, rfl⟩
      · rw [if_neg hrare]
        exact ih hrest
    · rcases hfind : l.find? (fun da => da.loc = destloc) with _ | destassign
      · simp only [checkDirs, hs, hdest, hfind]
        exact ih hrest
      · have hda : destassign ∈ l := List.mem_of_find?_eq_some hfind
        rcases hwf.2.1 a ha d hd destassign hda with ⟨d2, hd2, hpd⟩
        rcases get_symbol_some destassign.tile d2 destassign.rotation
          (hwf.1 destassign hda) hd2 with ⟨s2, hs2⟩
        have hsm : s ∈ a.tile.symbols := get_symbol_mem a.tile d a.rotation s hs
        rcases Option.isSome_iff_exists.mp (hwf.2.2 a ha s hsm) with ⟨p, hp⟩
        simp only [checkDirs, hs, hdest, hfind, hpd, hs2, hp]
        by_cases hmatch : ¬ p = s2
        · rw [if_pos hmatch]
          exact ⟨false, rfl⟩
        · rw [if_neg hmatch]
          exact ih hrest

theorem validateGo_isSome (g : Game) (u : Bool) (l : List Assignment)
    (hwf : ValidateWF g l) :
    ∀ sub : List Assignment, (∀ a ∈ sub, a ∈ l) →
      ∃ res, validateGo g u l sub = some res := by
  intro sub
  induction sub with
  | nil => intro _; exact ⟨(true, []), rfl⟩
  | cons a rest ih =>
    intro hsub
    have ha : a ∈ l := hsub a (List.mem_cons_self a rest)
    have hrest : ∀ a2 ∈ rest, a2 ∈ l :=
      fun a2 h => hsub a2 (List.mem_cons_of_mem a h)
    rcases ih hrest with ⟨⟨ok, rest2⟩, hrec⟩
    by_cases hv : a.validated
    · refine ⟨(ok, a :: rest2), ?_⟩
      simp only [validateGo, if_pos hv, hrec]
    · rcases checkDirs_isSome g u l a hwf ha a.tile.directions (fun _ h => h) with
        ⟨b, hcd⟩
      cases b
      · refine ⟨(false, a :: rest), ?_⟩
        simp only [validateGo, if_neg hv, hcd]
      · refine ⟨(ok, setValidated a :: rest2), ?_⟩
        simp only [validateGo, if_neg hv, hcd, hrec]

theorem checkDirs_rare_ne_true (g : Game) (l : List Assignment) (a : Assignment)
    (d : String) (s : Symb) (hs : a.tile.get_symbol d a.rotation = some s)
    (hrare : truthy (lookupRare g.rares s) = true)
    (hdest : getDest g.layout a.loc d = none) :
    ∀ dirs : List String, d ∈ dirs → checkDirs g true l a dirs ≠ some true := by
  intro dirs
  induction dirs with
  | nil => intro h; cases h
  | cons d2 rest ih =>
    intro hmem hcontra
    by_cases hdd : d2 = d
    · subst hdd
      simp only [checkDirs, hs, hdest] at hcontra
      rw [if_pos (by simp [hrare])] at hcontra
      cases hcontra
    · have hdr : d ∈ rest := by
        rcases List.mem_cons.mp hmem with h | h
        · exact absurd h.symm hdd
        · exact h
      rcases hs2 : a.tile.get_symbol d2 a.rotation with _ | s2
      · simp only [checkDirs, hs2] at hcontra
        cases hcontra
      · rcases hdest2 : getDest g.layout a.loc d2 with _ | destloc
        · simp only [checkDirs, hs2, hdest2] at hcontra
          by_cases hrare2 : (true && truthy (lookupRare g.rares s2)) = true
          · rw [if_pos hrare2] at hcontra
            cases hcontra
          · rw [if_neg hrare2] at hcontra
            exact ih hdr hcontra
        · rcases hfind : l.find? (fun da => da.loc = destloc) with _ | destassign
          · simp only [checkDirs, hs2, hdest2, hfind] at hcontra
            exact ih hdr hcontra
          · rcases hpd : getPairedDir g.layout d2 with _ | otherdir
            · simp only [checkDirs, hs2, hdest2, hfind, hpd] at hcontra
              cases hcontra
            · rcases hos : destassign.tile.get_symbol otherdir destassign.rotation with
                _ | othersym
              · simp only [checkDirs, hs2, hdest2, hfind, hpd, hos] at hcontra
                cases hcontra
              · rcases hlp : lookupPair g.sympairs s2 with _ | p
                · simp only [checkDirs, hs2, hdest2, hfind, hpd, hos, hlp] at hcontra
                  cases hcontra
                · simp only [checkDirs, hs2, hdest2, hfind, hpd, hos, hlp] at hcontra
                  by_cases hmatch : ¬ p = othersym
                  · rw [if_pos hmatch] at hcontra
                    cases hcontra
                  · rw [if_neg hmatch] at hcontra
                    exact ih hdr hcontra

theorem validateGo_true_checkDirs (g : Game) (u : Bool) (l : List Assignment) :
    ∀ (sub : List Assignment) (l2 : List Assignment),
      validateGo g u l sub = some (true, l2) →
      ∀ a ∈ sub, a.validated = false →
        checkDirs g u l a a.tile.directions = some true := by
  intro sub
  induction sub with
  | nil => intro l2 _ a ha; cases ha
  | cons b rest ih =>
    intro l2 h a ha hav
    by_cases hv : b.validated
    · simp only [validateGo, if_pos hv] at h
      rcases hrec : validateGo g u l rest with _ | okrest
      · rw [hrec] at h
        cases h
      · rw [hrec] at h
        rcases okrest with ⟨ok, rest2⟩
        simp only [Option.some.injEq, Prod.mk.injEq] at h
        rcases List.mem_cons.mp ha with rfl | hmem
        · rw [hv] at hav
          cases hav
        · exact ih rest2 (by rw [hrec, h.1]) a hmem hav
    · simp only [validateGo, if_neg hv] at h
      rcases hcd : checkDirs g u l b b.tile.directions with _ | bb
      · rw [hcd] at h
        cases h
      · rw [hcd] at h
        cases bb
        · simp at h
        · rcases hrec : validateGo g u l rest with _ | okrest
          · rw [hrec] at h
            cases h
          · rw [hrec] at h
            rcases okrest with ⟨ok, rest2⟩
            simp only [Option.some.injEq, Prod.mk.injEq] at h
            rcases List.mem_cons.mp ha with rfl | hmem
            · exact hcd
            · exact ih rest2 (by rw [hrec, h.1]) a hmem hav

/-- C5 as amended: with rarity checking enabled, `Game` construction
(starting from the rare-dict state left by constructing the tiles' symbols)
classifies a symbol as rare exactly when its occurrence count is at most
`inner_edges / len(symbols)` — the comparison is inclusive — and
`Board.validate` returns `False` for every well-formed board containing a
not-yet-validated assignment that places a rare symbol on a direction with
no neighboring location, provided additionally that every symbol carried by
an assigned tile is pairable (otherwise the comparison of the `None` lookup
against a `Symbol` may raise first — see the counterexample); even without
that proviso, such a board never validates successfully: `validate` cannot
return `True` on it. -/
theorem C5_rarity_and_boundary :
    (∀ (tiles : List Tile) (ie : Nat) (s : Symb),
        s ∈ (tiles.flatMap (·.symbols)).dedup →
        (lookupRare (gameRares tiles ie) s = some true ↔
          (((tiles.flatMap (·.symbols)).count s : ℚ) ≤
            (ie : ℚ) / (((tiles.flatMap (·.symbols)).dedup.length : ℚ))))) ∧
    (∀ (g : Game) (l : List Assignment) (a : Assignment) (d : String) (s : Symb),
        ValidateWF g l → a ∈ l → a.validated = false →
        a.tile.get_symbol d a.rotation = some s →
        truthy (lookupRare g.rares s) = true →
        getDest g.layout a.loc d = none →
        d ∈ a.tile.directions →
        ∃ l2, validate g true l = some (false, l2)) ∧
    (∀ (g : Game) (l : List Assignment) (a : Assignment) (d : String) (s : Symb),
        a ∈ l → a.validated = false →
        a.tile.get_symbol d a.rotation = some s →
        truthy (lookupRare g.rares s) = true →
        getDest g.layout a.loc d = none →
        d ∈ a.tile.directions →
        ∀ l2, validate g true l ≠ some (true, l2)) := by
  refine ⟨gameRares_spec, ?_, ?_⟩
  · intro g l a d s hwf ha hav hs hrare hdest hd
    rcases validateGo_isSome g true l hwf l (fun _ h => h) with ⟨⟨ok, l2⟩, hres⟩
    cases ok
    · exact ⟨l2, hres⟩
    · exfalso
      have hcd := validateGo_true_checkDirs g true l l l2 hres a ha hav
      exact checkDirs_rare_ne_true g l a d s hs hrare hdest a.tile.directions hd hcd
  · intro g l a d s ha hav hs hrare hdest hd l2 hcontra
    have hcd := validateGo_true_checkDirs g true l l l2 hcontra a ha hav
    exact checkDirs_rare_ne_true g l a d s hs hrare hdest a.tile.directions hd hcd

/-! ## Concrete games used by the witnesses and the solve run -/

/-- The 2×1 direction map `{'e': (1, 0), 'w': (-1, 0)}` of the test suite. -/
def dmapEW : List (String × Coord) := [("e", (1, 0)), ("w", (-1, 0))]

def emptyLayout : Layout := ⟨[], [], [], 0⟩

/-- A 2×1 layout: two locations joined by the e/w directions. -/
def layout2x1 : Layout := (Layout.make [(0, 0), (1, 0)] dmapEW).getD emptyLayout

/-- A 3×1 layout. -/
def layout3x1 : Layout :=
  (Layout.make [(0, 0), (1, 0), (2, 0)] dmapEW).getD emptyLayout

/-- A two-direction tile whose two symbols pair with each other and each
occur exactly once: with the 2×1 layout (2 inner edges, 2 distinct symbols)
their frequency 1 sits exactly at the rarity threshold `2 / 2 = 1`. -/
def tA : Tile := ⟨0, ["e", "w"], [("s", "L"), ("s", "R")]⟩

/-- The game built from `tA` on the 2×1 layout, rarity checking enabled:
both symbols sit at the rarity threshold and are marked rare. -/
def gA : Game :=
  ⟨layout2x1, [tA],
    [(("s", "L"), ("s", "R")), (("s", "R"), ("s", "L"))],
    [(("s", "L"), true), (("s", "R"), true)]⟩


/-! ### A kernel-computable form of the rarity condition

Python's true division is modelled exactly in `ℚ`; the equivalent
cross-multiplied condition below lets concrete games be evaluated by
`decide`. -/

def natRareCond (a ie n : Nat) : Bool :=
  if n = 0 then a = 0 else a * n ≤ ie

theorem ratCond_iff_natCond (a ie n : Nat) :
    ((a : ℚ) ≤ (ie : ℚ) / (n : ℚ)) ↔ natRareCond a ie n = true := by
  unfold natRareCond
  by_cases hn : n = 0
  · subst hn
    rw [if_pos rfl]
    simp only [Nat.cast_zero, div_zero, decide_eq_true_eq]
    constructor
    · intro h
      have h2 : (a : ℚ) = 0 := le_antisymm h (by positivity)
      exact_mod_cast h2
    · intro h
      rw [h]
      simp
  · rw [if_neg hn, le_div_iff₀ (by positivity)]
    simp only [decide_eq_true_eq]
    exact_mod_cast Iff.rfl

def rarityPassN (symbols : List Symb) (freq : Symb → Nat) (ie n : Nat)
    (d : List (Symb × Bool)) : List (Symb × Bool) :=
  symbols.foldl
    (fun d s => if natRareCond (freq s) ie n then dictSet d s true else d) d

theorem rarityPass_eq_N (freq : Symb → Nat) (ie n : Nat) :
    ∀ (symbols : List Symb) (d : List (Symb × Bool)),
      rarityPass symbols freq ie n d = rarityPassN symbols freq ie n d := by
  intro symbols
  induction symbols with
  | nil => intro d; rfl
  | cons a rest ih =>
    intro d
    have hcond : ((freq a : ℚ) ≤ (ie : ℚ) / (n : ℚ)) ↔ natRareCond (freq a) ie n = true :=
      ratCond_iff_natCond (freq a) ie n
    simp only [rarityPass, rarityPassN, List.foldl_cons]
    by_cases h : natRareCond (freq a) ie n = true
    · rw [if_pos (hcond.mpr h), if_pos h]
      exact ih _
    · rw [if_neg (fun hh => h (hcond.mp hh)), if_neg h]
      exact ih _

def gameRaresN (tiles : List Tile) (inner_edges : Nat) : List (Symb × Bool) :=
  let symlist := tiles.flatMap (·.symbols)
  let symbols := symlist.dedup
  rarityPassN symbols (fun s => symlist.count s) inner_edges symbols.length
    (rareInit symlist)

theorem gameRares_eq_N (tiles : List Tile) (ie : Nat) :
    gameRares tiles ie = gameRaresN tiles ie := by
  unfold gameRares gameRaresN
  rw [rarityPass_eq_N]

def mkGameN (useRares : Bool) (layout : Layout) (tiles : List Tile) : Option Game :=
  if tiles.isEmpty then none
  else
    let symlist := tiles.flatMap (·.symbols)
    let symbols := symlist.dedup
    let rares :=
      if useRares then gameRaresN tiles layout.inner_edges else rareInit symlist
    let symsides := (symbols.map (·.2)).dedup
    if symsides.length ≠ 2 then none
    else some ⟨layout, tiles, gameSympairs symbols, rares⟩

theorem mkGame_eq_N (useRares : Bool) (layout : Layout) (tiles : List Tile) :
    mkGame useRares layout tiles = mkGameN useRares layout tiles := by
  unfold mkGame mkGameN
  rw [gameRares_eq_N]

theorem mkGame_gA : mkGame true layout2x1 [tA] = some gA := by
  rw [mkGame_eq_N]
  decide

/-- Witness for C5: the symbol `('s', 'L')` of `tA` sits exactly at the
rarity threshold (frequency 1, `2 / 2 = 1` inclusive) and is classified
rare, and the board placing `tA` with its rare `('s', 'R')` side on the
boundary-facing west direction fails validation. -/
theorem C5_witness :
    (lookupRare (gameRares [tA] layout2x1.inner_edges) ("s", "L") = some true) ∧
    (∃ l2, validate gA true [⟨(0, 0), tA, 0, false⟩] = some (false, l2)) := by
  constructor
  · refine (C5_rarity_and_boundary.1 [tA] layout2x1.inner_edges ("s", "L")
      (by decide)).mpr ?_
    rw [ratCond_iff_natCond]
    decide
  · exact C5_rarity_and_boundary.2.1 gA [⟨(0, 0), tA, 0, false⟩]
      ⟨(0, 0), tA, 0, false⟩ "w" ("s", "R") (by decide) (by decide) rfl
      (by decide) (by decide) (by decide) (by decide)

/-! ### Counterexample game for C5: an unpairable symbol compared at an
occupied neighbor -/

/-- A tile carrying the unpairable symbol `('u', 'L')` on both sides. -/
def tD0 : Tile := ⟨0, ["e", "w"], [("u", "L"), ("u", "L")]⟩

/-- A tile whose east side carries the rare, unpairable `('x', 'R')`. -/
def tD1 : Tile := ⟨1, ["e", "w"], [("x", "R"), ("m", "R")]⟩

/-- A game in which no symbol has a partner (`sympairs` is empty) while
`('x', 'R')` and `('m', 'R')` are rare (counts 1 against threshold `4/3`
on the 3×1 layout). -/
def gD : Game :=
  ⟨layout3x1, [tD0, tD1], [],
    [(("u", "L"), false), (("x", "R"), true), (("m", "R"), true)]⟩

theorem mkGame_gD : mkGame true layout3x1 [tD0, tD1] = some gD := by
  rw [mkGame_eq_N]
  decide

/-- Counterexample to C5 as stated: on the board placing `tD0` at `(1,0)`
and `tD1` at `(2,0)`, the second assignment puts the rare `('x', 'R')` on
the neighborless east direction — every condition of the claim holds — yet
`validate` does not return `False`: processing the first assignment reaches
the occupied neighbor at `(2,0)`, looks up the unpairable `('u', 'L')` in
`sympairs`, and the comparison `None != othersym` raises `AttributeError`
(modelled as `none`) before the rare check is ever reached. -/
theorem C5_counterexample :
    (⟨(2, 0), tD1, 0, false⟩ : Assignment) ∈
        ([⟨(1, 0), tD0, 0, false⟩, ⟨(2, 0), tD1, 0, false⟩] : List Assignment) ∧
    (⟨(2, 0), tD1, 0, false⟩ : Assignment).validated = false ∧
    tD1.get_symbol "e" 0 = some ("x", "R") ∧
    truthy (lookupRare gD.rares ("x", "R")) = true ∧
    getDest gD.layout (2, 0) "e" = none ∧
    "e" ∈ tD1.directions ∧
    validate gD true
      [⟨(1, 0), tD0, 0, false⟩, ⟨(2, 0), tD1, 0, false⟩] = none := by
  refine ⟨by decide, rfl, by decide, by decide, by decide, by decide, by decide⟩

/-! ## Claim C7: the extend precondition -/

theorem get_rotations_some (t : Tile) (s : Symb) (d : String)
    (hd : d ∈ t.directions) : ∃ rots, t.get_rotations s d = some rots := by
  rcases hfi : t.directions.findIdx? (fun x => x = d) with _ | idx
  · rw [List.findIdx?_eq_none_iff] at hfi
    have := hfi d hd
    simp at this
  · refine ⟨t.symbols.enum.filterMap (fun p =>
      if p.2 = s then some (((idx : Int) - p.1).emod t.directions.length) else none), ?_⟩
    unfold Tile.get_rotations
    rw [hfi]

theorem mem_unassignedTiles (g : Game) (l : List Assignment) (t : Tile)
    (ht : t ∈ unassignedTiles g l) : t ∈ g.tiles := by
  unfold unassignedTiles at ht
  rw [List.mem_mergeSort, List.mem_dedup] at ht
  exact (List.mem_filter.mp ht).1

/-- The well-formedness of a board and its game's tile set under which
`Board.extend_board` raises nothing except possibly its own usage error:
symbol lists parallel direction lists, and every direction of every
assigned tile is paired with a direction present on every tile of the
game. -/
def ExtendWF (g : Game) (l : List Assignment) : Prop :=
  (∀ a ∈ l, a.tile.symbols.length = a.tile.directions.length) ∧
  (∀ a ∈ l, ∀ d ∈ a.tile.directions, ∀ t ∈ g.tiles,
    ∃ d2 ∈ t.directions, getPairedDir g.layout d = some d2)

instance (g : Game) (l : List Assignment) : Decidable (ExtendWF g l) := by
  unfold ExtendWF
  infer_instance

theorem collectRots_isSome (othersym : Symb) (otherdirOpt : Option String)
    (destloc : Coord) (l : List Assignment) :
    ∀ ts : List Tile, (∀ t ∈ ts, ∃ d2 ∈ t.directions, otherdirOpt = some d2) →
      ∃ bs, collectRots othersym otherdirOpt destloc l ts = some bs := by
  intro ts
  induction ts with
  | nil => intro _; exact ⟨[], rfl⟩
  | cons t rest ih =>
    intro hts
    rcases hts t (List.mem_cons_self t rest) with ⟨d2, hd2, hdir⟩
    subst hdir
    rcases get_rotations_some t othersym d2 hd2 with ⟨rots, hrots⟩
    rcases ih (fun t2 h => hts t2 (List.mem_cons_of_mem t h)) with ⟨bs, hbs⟩
    refine ⟨rots.map (fun rot => l ++ [⟨destloc, t, rot, false⟩]) ++ bs, ?_⟩
    simp only [collectRots, rotsFor, hrots, hbs]

theorem extendDir_isSome (g : Game) (l : List Assignment) (a : Assignment)
    (d : String) (hwf : ExtendWF g l) (ha : a ∈ l) (hd : d ∈ a.tile.directions) :
    ∃ bs, extendDir g l (unassignedTiles g l) a d = some bs := by
  rcases hdest : getDest g.layout a.loc d with _ | destloc
  · refine ⟨[], ?_⟩
    simp only [extendDir, hdest]
  · by_cases hocc : (l.find? (fun da => da.loc = destloc)).isSome
    · refine ⟨[], ?_⟩
      simp only [extendDir, hdest, if_pos hocc]
    · rcases get_symbol_some a.tile d a.rotation (hwf.1 a ha) hd with ⟨s, hs⟩
      rcases hlp : lookupPair g.sympairs s with _ | othersym
      · refine ⟨[], ?_⟩
        simp only [extendDir, hdest, if_neg hocc, hs, hlp]
      · rcases collectRots_isSome othersym (getPairedDir g.layout d) destloc l
          (unassignedTiles g l) (fun t ht => by
            rcases hwf.2 a ha d hd t (mem_unassignedTiles g l t ht) with ⟨d2, hd2, hpd⟩
            exact ⟨d2, hd2, hpd⟩) with ⟨bs, hbs⟩
        refine ⟨bs, ?_⟩
        simp only [extendDir, hdest, if_neg hocc, hs, hlp, hbs]

theorem extendDirs_isSome (g : Game) (l : List Assignment) (a : Assignment)
    (hwf : ExtendWF g l) (ha : a ∈ l) :
    ∀ dirs : List String, (∀ d ∈ dirs, d ∈ a.tile.directions) →
      ∃ bs, extendDirs g l (unassignedTiles g l) a dirs = some bs := by
  intro dirs
  induction dirs with
  | nil => intro _; exact ⟨[], rfl⟩
  | cons d rest ih =>
    intro hsub
    rcases extendDir_isSome g l a d hwf ha (hsub d (List.mem_cons_self d rest)) with
      ⟨bs, hbs⟩
    rcases ih (fun d2 h => hsub d2 (List.mem_cons_of_mem d h)) with ⟨bs2, hbs2⟩
    refine ⟨bs ++ bs2, ?_⟩
    simp only [extendDirs, hbs, hbs2]

/-- C7: for every well-formed board of a game, `extend_board` raises the
usage-contract `ValueError` whenever some assignment's `validated` flag is
false (it never silently returns a list), and returns a list of children
normally whenever every assignment is validated. -/
theorem C7_extend_precondition (g : Game) (l : List Assignment)
    (hwf : ExtendWF g l) :
    ((∃ a ∈ l, a.validated = false) → extendBoard g l = .usage) ∧
    ((∀ a ∈ l, a.validated = true) → ∃ bs, extendBoard g l = .ok bs) := by
  unfold extendBoard
  have hgen : ∀ sub : List Assignment, (∀ a ∈ sub, a ∈ l) →
      ((∃ a ∈ sub, a.validated = false) →
        extendGo g l (unassignedTiles g l) sub = .usage) ∧
      ((∀ a ∈ sub, a.validated = true) →
        ∃ bs, extendGo g l (unassignedTiles g l) sub = .ok bs) := by
    intro sub
    induction sub with
    | nil =>
      intro _
      refine ⟨?_, ?_⟩
      · rintro ⟨a, ha, _⟩
        cases ha
      · intro _
        exact ⟨[], rfl⟩
    | cons a rest ih =>
      intro hsub
      have ha : a ∈ l := hsub a (List.mem_cons_self a rest)
      have hrest : ∀ a2 ∈ rest, a2 ∈ l :=
        fun a2 h => hsub a2 (List.mem_cons_of_mem a h)
      refine ⟨?_, ?_⟩
      · rintro ⟨b, hb, hbv⟩
        by_cases hv : a.validated
        · rcases extendDirs_isSome g l a hwf ha a.tile.directions (fun _ h => h) with
            ⟨bs, hbs⟩
          have hbrest : b ∈ rest := by
            rcases List.mem_cons.mp hb with rfl | h
            · rw [hv] at hbv
              cases hbv
            · exact h
          have husage := (ih hrest).1 ⟨b, hbrest, hbv⟩
          have hcond : ¬ ¬ a.validated = true := by simp [hv]
          simp only [extendGo, hbs, husage]
          rw [if_neg hcond]
        · simp only [extendGo]
          rw [if_pos hv]
      · intro hval
        have hv : a.validated = true := hval a (List.mem_cons_self a rest)
        rcases extendDirs_isSome g l a hwf ha a.tile.directions (fun _ h => h) with
          ⟨bs, hbs⟩
        rcases (ih hrest).2 (fun a2 h => hval a2 (List.mem_cons_of_mem a h)) with
          ⟨bs2, hbs2⟩
        have hcond : ¬ ¬ a.validated = true := by simp [hv]
        refine ⟨bs ++ bs2, ?_⟩
        simp only [extendGo, hbs, hbs2]
        rw [if_neg hcond]
  exact hgen l (fun _ h => h)

/-- Witness for C7 on a concrete game: a board with an unvalidated
assignment yields the usage error, and the same board with the flag set
extends normally. -/
theorem C7_witness :
    extendBoard gA [⟨(0, 0), tA, 0, false⟩] = .usage ∧
    (∃ bs, extendBoard gA [⟨(0, 0), tA, 0, true⟩] = .ok bs) := by
  constructor
  · exact (C7_extend_precondition gA [⟨(0, 0), tA, 0, false⟩] (by decide)).1
      ⟨⟨(0, 0), tA, 0, false⟩, by decide, rfl⟩
  · exact (C7_extend_precondition gA [⟨(0, 0), tA, 0, true⟩] (by decide)).2
      (by decide)

/-! ## Witness game for C9 -/

/-- A tile carrying the frequent symbol `('m', 'L')` on both sides. -/
def tB0 : Tile := ⟨0, ["e", "w"], [("m", "L"), ("m", "L")]⟩

/-- A tile pairing with `tB0` on one side and carrying the rare
`('x', 'R')` on the other. -/
def tB1 : Tile := ⟨1, ["e", "w"], [("m", "R"), ("x", "R")]⟩

/-- The game on the 3×1 layout built from `tB0` and `tB1`: 4 inner edges,
3 distinct symbols, so the threshold is `4/3` and the once-occurring
`('m', 'R')` and `('x', 'R')` are rare while `('m', 'L')` is not. -/
def gB : Game :=
  ⟨layout3x1, [tB0, tB1],
    [(("m", "L"), ("m", "R")), (("m", "R"), ("m", "L"))],
    [(("m", "L"), false), (("m", "R"), true), (("x", "R"), true)]⟩

theorem mkGame_gB : mkGame true layout3x1 [tB0, tB1] = some gB := by
  rw [mkGame_eq_N]
  decide

/-- Witness for C9: validating the board that places `tB0` at `(0,0)` and
`tB1` at `(2,0)` fails on `tB1`'s rare boundary symbol, yet leaves the
fully-checked first assignment with its flag set to `True`. -/
theorem C9_witness :
    ∃ k, k < ([⟨(0, 0), tB0, 0, false⟩,
               ⟨(2, 0), tB1, 0, false⟩] : List Assignment).length ∧
      ([⟨(0, 0), tB0, 0, true⟩, ⟨(2, 0), tB1, 0, false⟩] : List Assignment) =
        (([⟨(0, 0), tB0, 0, false⟩,
           ⟨(2, 0), tB1, 0, false⟩] : List Assignment).take k).map setValidated ++
          ([⟨(0, 0), tB0, 0, false⟩,
            ⟨(2, 0), tB1, 0, false⟩] : List Assignment).drop k ∧
      ∀ a ∈ ([⟨(0, 0), tB0, 0, true⟩,
              ⟨(2, 0), tB1, 0, false⟩] : List Assignment).take k,
        a.validated = true :=
  C9_validate_not_atomic gB true
    [⟨(0, 0), tB0, 0, false⟩, ⟨(2, 0), tB1, 0, false⟩]
    [⟨(0, 0), tB0, 0, true⟩, ⟨(2, 0), tB1, 0, false⟩] (by decide)

/-! ## Claim C1: the drained-stack return value of Game.solve -/

/-- A tile whose symbol `('a', 'left')` has no partner of the other side. -/
def tC0 : Tile := ⟨0, ["e", "w"], [("a", "left"), ("a", "left")]⟩

/-- A tile whose symbol `('b', 'right')` has no partner of the other side. -/
def tC1 : Tile := ⟨1, ["e", "w"], [("b", "right"), ("b", "right")]⟩

/-- An unsolvable game: the two tiles' symbols never pair, so no
two-assignment board validates, and the search stack drains with no
solution found.  `sympairs` is empty and no symbol is rare (each count 2
exceeds the threshold `2/2 = 1`). -/
def gC : Game :=
  ⟨layout2x1, [tC0, tC1], [],
    [(("a", "left"), false), (("b", "right"), false)]⟩

theorem mkGame_gC : mkGame true layout2x1 [tC0, tC1] = some gC := by
  rw [mkGame_eq_N]
  decide

/-- C1 (evaluation at the failing input): on the unsolvable game `gC`, the
search pops all four seed boards (each validates but is unsolved and yields
no children) and the stack drains; in first-only mode `Game.solve` then
returns the *last popped board* — an arbitrary non-solved Board, not an
empty result or a distinct no-solution signal — while all-solutions mode
returns the empty accumulator as the claim states. -/
theorem C1_drained_returns_unsolved_board :
    solve gC true true 10 = .single [⟨(0, 0), tC1, 1, true⟩] ∧
    checkSolved gC [⟨(0, 0), tC1, 1, true⟩] = false ∧
    solve gC true false 10 = .multiple [] := by
  refine ⟨by decide, by decide, by decide⟩
